import Mathlib

/-!
  Verification development for the garnetdg_app_server repository.

  The definitions below are a shallow embedding of the Rust sources:
  * `src/src/message_queue.rs` — hierarchical pub/sub message queue
    (subscription tree, send/get/wait owner-thread handlers, MessageID hex
    serialization);
  * `src/src/helpers/tlru_cache.rs` — time-aware LRU cache with a circular
    doubly-linked ring expressed by keys;
  * `src/src/datastore/mod.rs` — history-tracking data store (the request
    handlers are `todo!()` placeholders in the source; the corresponding
    definitions here are modelled from the specification and say so).

  Conventions:
  * `HashMap` is embedded as an association list with `assocFind`,
    `assocInsert` (insert-or-replace), `assocUpdate` (`get_mut`-style
    in-place update) and `assocErase`.
  * `Instant`/`Duration` are embedded as `Nat`; `Instant::duration_since`
    is truncated subtraction, matching its saturating behaviour.
  * Rust code that can panic (`HashMap` indexing / `.unwrap()`) is embedded
    in `Option`, with `none` for "did not return normally".
  * `VecDeque` is a `List` whose head is the front (oldest element);
    `push_back` is appending on the right.
-/

namespace AppServer

/-- Association-list lookup, embedding `HashMap::get`. -/
def assocFind {α β : Type} [DecidableEq α] : List (α × β) → α → Option β
  | [], _ => none
  | (a, b) :: rest, k => if a = k then some b else assocFind rest k

/-- Association-list insert-or-replace, embedding `HashMap::insert`
(and `Entry::or_insert` followed by arbitrary mutation of the slot). -/
def assocInsert {α β : Type} [DecidableEq α] : List (α × β) → α → β → List (α × β)
  | [], k, v => [(k, v)]
  | (a, b) :: rest, k, v =>
    if a = k then (k, v) :: rest else (a, b) :: assocInsert rest k v

/-- In-place update of an existing binding, embedding mutation through
`HashMap::get_mut` (a missing key is a no-op here; the embeddings of the
Rust call sites check presence first because `get_mut(..).unwrap()` panics). -/
def assocUpdate {α β : Type} [DecidableEq α] : List (α × β) → α → (β → β) → List (α × β)
  | [], _, _ => []
  | (a, b) :: rest, k, f =>
    if a = k then (a, f b) :: rest else (a, b) :: assocUpdate rest k f

/-- Association-list removal, embedding `HashMap::remove`. -/
def assocErase {α β : Type} [DecidableEq α] : List (α × β) → α → List (α × β)
  | [], _ => []
  | (a, b) :: rest, k =>
    if a = k then assocErase rest k else (a, b) :: assocErase rest k

section AssocLemmas

variable {α β : Type} [DecidableEq α]

theorem assocFind_insert_self (l : List (α × β)) (k : α) (v : β) :
    assocFind (assocInsert l k v) k = some v := by
  induction l with
  | nil => simp [assocInsert, assocFind]
  | cons p rest ih =>
    obtain ⟨a, b⟩ := p
    by_cases h : a = k
    · simp [assocInsert, assocFind, h]
    · simpa [assocInsert, assocFind, h] using ih

theorem assocFind_insert_ne (l : List (α × β)) (k k' : α) (v : β) (h : k ≠ k') :
    assocFind (assocInsert l k v) k' = assocFind l k' := by
  induction l with
  | nil => simp [assocInsert, assocFind, h]
  | cons p rest ih =>
    obtain ⟨a, b⟩ := p
    by_cases hp : a = k
    · subst hp
      simp [assocInsert, assocFind, h]
    · simp only [assocInsert, hp, if_false]
      by_cases hp' : a = k'
      · simp [assocFind, hp']
      · simpa [assocFind, hp'] using ih

theorem assocFind_update_self (l : List (α × β)) (k : α) (f : β → β) :
    assocFind (assocUpdate l k f) k = (assocFind l k).map f := by
  induction l with
  | nil => simp [assocUpdate, assocFind]
  | cons p rest ih =>
    obtain ⟨a, b⟩ := p
    by_cases h : a = k
    · simp [assocUpdate, assocFind, h]
    · simpa [assocUpdate, assocFind, h] using ih

theorem assocFind_update_ne (l : List (α × β)) (k k' : α) (f : β → β) (h : k ≠ k') :
    assocFind (assocUpdate l k f) k' = assocFind l k' := by
  induction l with
  | nil => simp [assocUpdate, assocFind]
  | cons p rest ih =>
    obtain ⟨a, b⟩ := p
    by_cases hp : a = k
    · subst hp
      simp [assocUpdate, assocFind, h]
    · by_cases hp' : a = k'
      · simp [assocUpdate, assocFind, hp, hp', Ne.symm h]
      · simpa [assocUpdate, assocFind, hp, hp'] using ih

theorem assocFind_erase_self (l : List (α × β)) (k : α) :
    assocFind (assocErase l k) k = none := by
  induction l with
  | nil => simp [assocErase, assocFind]
  | cons p rest ih =>
    obtain ⟨a, b⟩ := p
    by_cases h : a = k
    · simpa [assocErase, assocFind, h] using ih
    · simpa [assocErase, assocFind, h] using ih

theorem assocFind_erase_ne (l : List (α × β)) (k k' : α) (h : k ≠ k') :
    assocFind (assocErase l k) k' = assocFind l k' := by
  induction l with
  | nil => simp [assocErase, assocFind]
  | cons p rest ih =>
    obtain ⟨a, b⟩ := p
    by_cases hp : a = k
    · subst hp
      simpa [assocErase, assocFind, h] using ih
    · by_cases hp' : a = k'
      · subst hp'
        simp [assocErase, assocFind, hp, Ne.symm h]
      · simpa [assocErase, assocFind, hp, hp'] using ih

theorem length_assocUpdate (l : List (α × β)) (k : α) (f : β → β) :
    (assocUpdate l k f).length = l.length := by
  induction l with
  | nil => simp [assocUpdate]
  | cons p rest ih =>
    obtain ⟨a, b⟩ := p
    by_cases h : a = k
    · simp [assocUpdate, h]
    · simpa [assocUpdate, h] using ih

theorem length_assocInsert_le (l : List (α × β)) (k : α) (v : β) :
    (assocInsert l k v).length ≤ l.length + 1 := by
  induction l with
  | nil => simp [assocInsert]
  | cons p rest ih =>
    obtain ⟨a, b⟩ := p
    by_cases h : a = k
    · simp [assocInsert, h]
    · simpa [assocInsert, h, Nat.succ_le_succ_iff] using ih

theorem length_assocErase_le (l : List (α × β)) (k : α) :
    (assocErase l k).length ≤ l.length := by
  induction l with
  | nil => simp [assocErase]
  | cons p rest ih =>
    obtain ⟨a, b⟩ := p
    by_cases h : a = k
    · simp only [assocErase, h, if_true]
      exact Nat.le_succ_of_le ih
    · simpa [assocErase, h, Nat.succ_le_succ_iff] using ih

theorem length_assocErase_lt (l : List (α × β)) (k : α) {v : β}
    (h : assocFind l k = some v) : (assocErase l k).length < l.length := by
  induction l with
  | nil => simp [assocFind] at h
  | cons p rest ih =>
    obtain ⟨a, b⟩ := p
    by_cases hp : a = k
    · simp only [assocErase, hp, if_true]
      exact Nat.lt_succ_of_le (length_assocErase_le rest k)
    · simp only [assocFind, hp, if_false] at h
      simpa [assocErase, hp] using Nat.succ_lt_succ (ih h)

theorem assocFind_update_isSome (l : List (α × β)) (k k' : α) (f : β → β) {v : β}
    (h : assocFind l k' = some v) :
    ∃ w, assocFind (assocUpdate l k f) k' = some w := by
  by_cases hk : k = k'
  · subst hk
    exact ⟨f v, by simp [assocFind_update_self, h]⟩
  · exact ⟨v, by simp [assocFind_update_ne l k k' f hk, h]⟩

end AssocLemmas

/-! ## Message queue (src/src/message_queue.rs)

The owner thread's state is a `SubscriptionTreeNode<T>`; the handlers for
the `Get`, `Wait` and `Send` requests are embedded as pure functions on it.
Channels are identified by `Nat` tokens; a delivery on a channel is recorded
as a `(channel, payload)` pair in the returned list. -/

/-- Embeds `MessageID` (a `u128`; `id : Nat`, with `id < 2^128` as the type
invariant of `u128` where it matters). -/
structure MessageID where
  id : Nat
deriving DecidableEq, Repr

/-- Embeds `Message<T>`; `timestamp` is a `Nat` instant. -/
structure Message (T : Type) where
  message : T
  path : List String
  timestamp : Nat
  message_id : MessageID
deriving DecidableEq, Repr

/-- Embeds `Subscription<T>`: the response channel, as an opaque token. -/
structure Subscription where
  channel : Nat
deriving DecidableEq, Repr

/-- Embeds `SubscriptionTreeNode<T>`: descendent map, subscription list and
the retained-message FIFO (head = front = oldest, as in `VecDeque`). -/
inductive SubscriptionTreeNode (T : Type) : Type where
  | mk (descendents : List (String × SubscriptionTreeNode T))
      (subscriptions : List Subscription)
      (messages : List (Message T))

/-- The descendent map of a node. -/
def SubscriptionTreeNode.descendents {T : Type} :
    SubscriptionTreeNode T → List (String × SubscriptionTreeNode T)
  | .mk d _ _ => d

/-- The subscription list of a node. -/
def SubscriptionTreeNode.subscriptions {T : Type} :
    SubscriptionTreeNode T → List Subscription
  | .mk _ s _ => s

/-- The retained-message FIFO of a node. -/
def SubscriptionTreeNode.messages {T : Type} :
    SubscriptionTreeNode T → List (Message T)
  | .mk _ _ m => m

/-- Embeds `SubscriptionTreeNode::new`. -/
def SubscriptionTreeNode.new {T : Type} : SubscriptionTreeNode T := .mk [] [] []

/-- Embeds `SubscriptionTreeNode::get_node`. -/
def SubscriptionTreeNode.get_node {T : Type} :
    SubscriptionTreeNode T → List String → Option (SubscriptionTreeNode T)
  | t, [] => some t
  | t, key :: rest =>
    match assocFind t.descendents key with
    | some descendent => descendent.get_node rest
    | none => none

/-- Embeds `MessageQueue::send_message_recursive`.  Returns the updated tree
together with the deliveries made to drained subscription channels (the Rust
code pops from the end of each `Vec`, hence the `reverse`; descendant nodes
are drained before their ancestors). -/
def send_message_recursive {T : Type} (t : SubscriptionTreeNode T)
    (path : List String) (message : Message T) :
    SubscriptionTreeNode T × List (Nat × List (Message T)) :=
  match path with
  | [] =>
    (.mk t.descendents [] (t.messages ++ [message]),
      t.subscriptions.reverse.map (fun s => (s.channel, [message])))
  | key :: rest =>
    let descendent := (assocFind t.descendents key).getD SubscriptionTreeNode.new
    let r := send_message_recursive descendent rest message
    (.mk (assocInsert t.descendents key r.1) [] (t.messages ++ [message]),
      r.2 ++ t.subscriptions.reverse.map (fun s => (s.channel, [message])))

/-- The owner thread's `Send` handler applied to a list of already-wrapped
messages, starting from the empty tree the thread is spawned with. -/
def sendAll {T : Type} (msgs : List (Message T)) : SubscriptionTreeNode T :=
  msgs.foldl (fun t m => (send_message_recursive t m.path m).1) SubscriptionTreeNode.new

/-- The stateful `filter` closure inside `get_sent_messages`, operating on
the reversed (newest-first) message list; the `Bool` argument is the
`found_message` flag. -/
def scanMissed {T : Type} (last : MessageID) :
    Bool → List (Message T) → List (Message T)
  | _, [] => []
  | true, _ :: rest => scanMissed last true rest
  | false, m :: rest =>
    if m.message_id = last then scanMissed last true rest
    else m :: scanMissed last false rest

/-- Embeds `SubscriptionTreeNode::get_sent_messages`. -/
def get_sent_messages {T : Type} (t : SubscriptionTreeNode T)
    (path : List String) (last_message_id : Option MessageID) : List (Message T) :=
  let all_messages :=
    match t.get_node path with
    | some node => node.messages
    | none => []
  match last_message_id with
  | some last => (scanMissed last false all_messages.reverse).reverse
  | none => all_messages

/-- Embeds the `Wait` branch body `subscription_tree.get_or_create_node(&path)`
followed by `node.subscriptions.push(subscription)`. -/
def subscribe_at {T : Type} (t : SubscriptionTreeNode T)
    (path : List String) (channel : Nat) : SubscriptionTreeNode T :=
  match path with
  | [] => .mk t.descendents (t.subscriptions ++ [⟨channel⟩]) t.messages
  | key :: rest =>
    let descendent := (assocFind t.descendents key).getD SubscriptionTreeNode.new
    .mk (assocInsert t.descendents key (subscribe_at descendent rest channel))
      t.subscriptions t.messages

/-- Embeds the owner thread's `Wait` request handler
(src/src/message_queue.rs, lines 63-86): the second component is `some ms`
when the handler replies immediately on the response channel, and `none`
when it registers the channel as a waiter instead. -/
def waitStep {T : Type} (t : SubscriptionTreeNode T) (path : List String)
    (channel : Nat) (last_message_id : Option MessageID) :
    SubscriptionTreeNode T × Option (List (Message T)) :=
  let missed_messages :=
    match last_message_id with
    | some last => get_sent_messages t path (some last)
    | none => []
  if missed_messages.length > 0 then (t, some missed_messages)
  else (subscribe_at t path channel, none)

/-- The retained FIFO visible at a path: the node's message list, or `[]`
when the node does not exist (the shape `get_sent_messages` reads). -/
def msgsAt {T : Type} (t : SubscriptionTreeNode T) (path : List String) :
    List (Message T) :=
  match t.get_node path with
  | some node => node.messages
  | none => []

/-- `q` is an initial segment of `p` (the spec's "q is a prefix of p",
reflexive, with `[]` the root). -/
def ancestorOf : List String → List String → Bool
  | [], _ => true
  | _ :: _, [] => false
  | x :: q, y :: p => x = y && ancestorOf q p

section MessageQueueLemmas

variable {T : Type}

theorem msgsAt_nil (t : SubscriptionTreeNode T) : msgsAt t [] = t.messages := rfl

theorem msgsAt_cons (t : SubscriptionTreeNode T) (x : String) (q : List String) :
    msgsAt t (x :: q) =
      match assocFind t.descendents x with
      | some c => msgsAt c q
      | none => [] := by
  cases h : assocFind t.descendents x with
  | none => simp [msgsAt, SubscriptionTreeNode.get_node, h]
  | some c => simp [msgsAt, SubscriptionTreeNode.get_node, h]

theorem msgsAt_new (q : List String) :
    msgsAt (SubscriptionTreeNode.new : SubscriptionTreeNode T) q = [] := by
  cases q with
  | nil => rfl
  | cons x q' =>
    simp [msgsAt, SubscriptionTreeNode.get_node, SubscriptionTreeNode.new,
      SubscriptionTreeNode.descendents, assocFind]

theorem msgsAt_send (p : List String) (t : SubscriptionTreeNode T)
    (q : List String) (m : Message T) :
    msgsAt (send_message_recursive t p m).1 q =
      if ancestorOf q p then msgsAt t q ++ [m] else msgsAt t q := by
  induction p generalizing t q with
  | nil =>
    cases q with
    | nil =>
      simp [send_message_recursive, msgsAt_nil, SubscriptionTreeNode.messages,
        ancestorOf]
    | cons x q' =>
      simp only [send_message_recursive, ancestorOf, if_false, Bool.false_eq_true]
      rw [msgsAt_cons, msgsAt_cons]
      rfl
  | cons k p' ih =>
    obtain ⟨d, subs, msgs⟩ := t
    cases q with
    | nil =>
      simp [send_message_recursive, msgsAt_nil, SubscriptionTreeNode.messages,
        ancestorOf]
    | cons x q' =>
      rw [msgsAt_cons, msgsAt_cons]
      simp only [send_message_recursive, SubscriptionTreeNode.descendents]
      by_cases hx : x = k
      · subst hx
        rw [assocFind_insert_self]
        have hanc : ancestorOf (x :: q') (x :: p') = ancestorOf q' p' := by
          simp [ancestorOf]
        rw [hanc]
        cases hf : assocFind d x with
        | some c => simpa using ih c q'
        | none =>
          have hnew := ih (SubscriptionTreeNode.new : SubscriptionTreeNode T) q'
          simp only [Option.getD_none]
          rw [hnew]
          by_cases ha : ancestorOf q' p' = true
          · simp [ha, msgsAt_new]
          · simp only [Bool.not_eq_true] at ha
            simp [ha, msgsAt_new]
      · rw [assocFind_insert_ne _ _ _ _ (fun hh => hx hh.symm)]
        have hanc : ancestorOf (x :: q') (k :: p') = false := by
          simp [ancestorOf, hx]
        rw [hanc]
        simp

theorem msgsAt_foldl_send (ms : List (Message T)) (t : SubscriptionTreeNode T)
    (q : List String) :
    msgsAt (ms.foldl (fun t m => (send_message_recursive t m.path m).1) t) q =
      msgsAt t q ++ ms.filter (fun m => ancestorOf q m.path) := by
  induction ms generalizing t with
  | nil => simp
  | cons m ms ih =>
    rw [List.foldl_cons, ih, msgsAt_send]
    by_cases h : ancestorOf q m.path = true
    · simp [h, List.filter_cons]
    · simp only [Bool.not_eq_true] at h
      simp [h, List.filter_cons]

theorem msgsAt_sendAll (ms : List (Message T)) (q : List String) :
    msgsAt (sendAll ms : SubscriptionTreeNode T) q =
      ms.filter (fun m => ancestorOf q m.path) := by
  rw [sendAll, msgsAt_foldl_send, msgsAt_new, List.nil_append]

theorem get_sent_messages_none (t : SubscriptionTreeNode T) (q : List String) :
    get_sent_messages t q none = msgsAt t q := rfl

theorem scanMissed_found (last : MessageID) (l : List (Message T)) :
    scanMissed last true l = [] := by
  induction l with
  | nil => rfl
  | cons m rest ih => simpa [scanMissed] using ih

theorem scanMissed_not_present (last : MessageID) (l : List (Message T))
    (h : ∀ m ∈ l, m.message_id ≠ last) : scanMissed last false l = l := by
  induction l with
  | nil => rfl
  | cons m rest ih =>
    have hm : m.message_id ≠ last := h m (List.mem_cons_self _ _)
    rw [scanMissed, if_neg hm, ih (fun x hx => h x (List.mem_cons_of_mem _ hx))]

theorem scanMissed_append (last : MessageID) (l1 l2 : List (Message T))
    (h : ∀ m ∈ l1, m.message_id ≠ last) :
    scanMissed last false (l1 ++ l2) = l1 ++ scanMissed last false l2 := by
  induction l1 with
  | nil => rfl
  | cons m rest ih =>
    have hm : m.message_id ≠ last := h m (List.mem_cons_self _ _)
    rw [List.cons_append, scanMissed, if_neg hm,
      ih (fun x hx => h x (List.mem_cons_of_mem _ hx)), List.cons_append]

end MessageQueueLemmas

/-! ## Message-queue claims -/

/-- C5: for every sequence of sends applied to the freshly spawned (empty)
subscription tree, a message sent to path `p` appears in the result of
`get_messages(q, None)` exactly when `q` is an initial segment of `p`
(including the root `[]` and `q = p`). -/
theorem mq_send_visibility (T : Type) [DecidableEq T] (ms : List (Message T))
    (q p : List String) (m : Message T) (hm : m ∈ ms) (hp : m.path = p) :
    m ∈ get_sent_messages (sendAll ms) q none ↔ ancestorOf q p = true := by
  rw [get_sent_messages_none, msgsAt_sendAll]
  simp [List.mem_filter, hm, hp]

/-- A concrete message used by the C5 witness. -/
def msgW : Message Nat := ⟨0, ["a"], 0, ⟨1⟩⟩

/-- Witness for C5: the message sent to `["a"]` is visible at the root. -/
theorem mq_send_visibility_witness :
    msgW ∈ get_sent_messages (sendAll [msgW]) [] none :=
  (mq_send_visibility Nat [msgW] [] ["a"] msgW (List.mem_singleton.mpr rfl) rfl).mpr rfl

/-- C4: `get_messages(p, Some M)` returns `[]` when node `p` does not exist;
returns the entire retained FIFO when no retained message has id `M`; and
returns exactly the strictly-newer suffix (in send order, excluding the
message with id `M` itself) when the FIFO splits around the newest
occurrence of `M`. -/
theorem mq_get_messages_cursor (T : Type) (t : SubscriptionTreeNode T)
    (p : List String) (M : MessageID) :
    (t.get_node p = none → get_sent_messages t p (some M) = []) ∧
    (∀ node, t.get_node p = some node →
      (∀ m ∈ node.messages, m.message_id ≠ M) →
      get_sent_messages t p (some M) = node.messages) ∧
    (∀ node pre msg suf, t.get_node p = some node →
      node.messages = pre ++ msg :: suf →
      msg.message_id = M →
      (∀ m ∈ suf, m.message_id ≠ M) →
      get_sent_messages t p (some M) = suf) := by
  refine ⟨?_, ?_, ?_⟩
  · intro h
    simp [get_sent_messages, h, scanMissed]
  · intro node h hno
    have : ∀ m ∈ node.messages.reverse, m.message_id ≠ M := by
      intro m hm
      exact hno m (List.mem_reverse.mp hm)
    simp [get_sent_messages, h, scanMissed_not_present M _ this]
  · intro node pre msg suf h hsplit hid hno
    have hrev : node.messages.reverse = suf.reverse ++ msg :: pre.reverse := by
      rw [hsplit]
      simp
    have hnorev : ∀ m ∈ suf.reverse, m.message_id ≠ M := by
      intro m hm
      exact hno m (List.mem_reverse.mp hm)
    simp only [get_sent_messages, h]
    rw [hrev, scanMissed_append M _ _ hnorev, scanMissed, if_pos hid,
      scanMissed_found]
    simp

/-- Concrete messages and tree used by the C4 witness and C6 theorem. -/
def mqMsgA : Message Nat := ⟨1, [], 0, ⟨1⟩⟩

/-- Second concrete message (newer than `mqMsgA`). -/
def mqMsgB : Message Nat := ⟨2, [], 1, ⟨2⟩⟩

/-- A tree holding two root messages. -/
def mqT2 : SubscriptionTreeNode Nat := sendAll [mqMsgA, mqMsgB]

/-- Witness for C4: with cursor = id of the older message, exactly the newer
message is returned. -/
theorem mq_get_messages_cursor_witness :
    get_sent_messages mqT2 [] (some ⟨1⟩) = [mqMsgB] :=
  (mq_get_messages_cursor Nat mqT2 [] ⟨1⟩).2.2 mqT2 [] mqMsgA [mqMsgB]
    rfl rfl rfl (by decide)

/-- C6: the owner thread's `Send` handler performs no retention trimming at
all (the cleanup is a TODO in the source), and the `Get` path trims nothing
either: after two sends to the root, the root FIFO retains both messages —
in particular a configured `message_limit = 1` or `message_expiry = 0` is
not enforced (the handler never consults the configuration). -/
theorem mq_no_retention_trimming :
    msgsAt mqT2 [] = [mqMsgA, mqMsgB] ∧ (msgsAt mqT2 []).length = 2 :=
  ⟨rfl, rfl⟩

/-- C1 counterexample: a `Wait` request with cursor `None` on a path whose
`Get` result is non-empty does **not** respond immediately — the handler
registers a waiter instead (the `Get` pre-check only runs for `Some` cursors). -/
theorem mq_wait_ignores_get_cex :
    get_sent_messages mqT2 [] none ≠ [] ∧ (waitStep mqT2 [] 7 none).2 = none := by
  refine ⟨?_, rfl⟩
  intro h
  have he : get_sent_messages mqT2 [] none = [mqMsgA, mqMsgB] := rfl
  rw [he] at h
  exact absurd h (List.cons_ne_nil _ _)

/-- The node reached by `get_or_create_node` holds the pushed subscription. -/
theorem subscribe_at_registers {T : Type} (p : List String)
    (t : SubscriptionTreeNode T) (ch : Nat) :
    ∃ node, (subscribe_at t p ch).get_node p = some node ∧
      (⟨ch⟩ : Subscription) ∈ node.subscriptions := by
  induction p generalizing t with
  | nil =>
    refine ⟨_, rfl, ?_⟩
    simp [subscribe_at, SubscriptionTreeNode.subscriptions]
  | cons k rest ih =>
    obtain ⟨node, hn, hmem⟩ :=
      ih ((assocFind t.descendents k).getD SubscriptionTreeNode.new)
    refine ⟨node, ?_, hmem⟩
    simp only [subscribe_at, SubscriptionTreeNode.get_node,
      SubscriptionTreeNode.descendents]
    rw [assocFind_insert_self]
    exact hn

/-- C1 amended: the `Wait` handler consults `Get` only when a cursor is
supplied; with a cursor and a non-empty `Get` result it replies immediately
with exactly that result and leaves the tree unchanged; with a cursor and an
empty `Get` result, or always with cursor `None`, it registers the response
channel as a waiter on the target node, which is created if absent. -/
theorem mq_wait_amended (T : Type) (t : SubscriptionTreeNode T)
    (p : List String) (ch : Nat) :
    (∀ l, get_sent_messages t p (some l) ≠ [] →
      waitStep t p ch (some l) = (t, some (get_sent_messages t p (some l)))) ∧
    (∀ l, get_sent_messages t p (some l) = [] →
      waitStep t p ch (some l) = (subscribe_at t p ch, none)) ∧
    waitStep t p ch none = (subscribe_at t p ch, none) ∧
    (∃ node, (subscribe_at t p ch).get_node p = some node ∧
      (⟨ch⟩ : Subscription) ∈ node.subscriptions) := by
  refine ⟨?_, ?_, ?_, subscribe_at_registers p t ch⟩
  · intro l hne
    have hlen : 0 < (get_sent_messages t p (some l)).length :=
      List.length_pos.mpr hne
    simp [waitStep, hlen]
  · intro l he
    simp [waitStep, he]
  · rfl

/-- Witness for the amended C1: with a stale cursor the handler replies
immediately with the missed messages. -/
theorem mq_wait_amended_witness :
    waitStep mqT2 [] 7 (some ⟨3⟩) =
      (mqT2, some (get_sent_messages mqT2 [] (some ⟨3⟩))) :=
  (mq_wait_amended Nat mqT2 [] 7).1 ⟨3⟩ (by decide)

/-! ## TLRU cache (src/src/helpers/tlru_cache.rs)

`Instant` and `Duration` are `Nat`; `Instant::duration_since` is truncated
subtraction.  Every operation that can panic (map indexing / `.unwrap()`)
returns `Option`, `none` meaning "did not return normally".  The `gc` loop
is given `entries.length` units of fuel — on a well-formed ring the walk
from the oldest entry back to the newest entry takes exactly that many
iterations; running out of fuel (only possible on a corrupted ring, where
the Rust loop would not terminate or would panic) also yields `none`. -/

/-- Embeds `CacheEntry<K, V>`. -/
structure CacheEntry (K V : Type) where
  value : V
  newer : K
  older : K
  create_time : Nat
  access_time : Nat
deriving DecidableEq, Repr

/-- Embeds `TLRUCache<K, V>` (configuration included). -/
structure TLRUCache (K V : Type) where
  entries : List (K × CacheEntry K V)
  newest_entry : Option K
  max_items : Option Nat
  max_create_age : Option Nat
  max_access_age : Option Nat
deriving DecidableEq, Repr

/-- Embeds `TLRUCache::new`. -/
def TLRUCache.new {K V : Type} (max_items : Option Nat)
    (max_create_age : Option Nat) (max_used_age : Option Nat) : TLRUCache K V :=
  ⟨[], none, max_items, max_create_age, max_used_age⟩

/-- Embeds `TLRUCache::is_entry_not_expired`. -/
def is_entry_not_expired {K V : Type} (c : TLRUCache K V)
    (cache_entry : CacheEntry K V) (now : Nat) : Bool :=
  match c.max_create_age with
  | some mca =>
    if now - cache_entry.create_time > mca then false
    else
      match c.max_access_age with
      | some maa => ¬ (now - cache_entry.access_time > maa)
      | none => true
  | none =>
    match c.max_access_age with
    | some maa => ¬ (now - cache_entry.access_time > maa)
    | none => true

/-- The first block of `TLRUCache::remove`: fix up the newest-entry pointer
when removing the newest entry.  `none` is a panic: the source indexes
`self.entries[&key]` for the `older` link. -/
def TLRUCache.removeFixNewest {K V : Type} [DecidableEq K] (c : TLRUCache K V)
    (k : K) : Option (TLRUCache K V) :=
  match c.newest_entry with
  | some nk =>
    if nk = k then
      match assocFind c.entries k with
      | some e =>
        if k = e.older then some { c with newest_entry := none }
        else some { c with newest_entry := some e.older }
      | none => none
    else some c
  | none => some c

/-- Embeds `TLRUCache::remove`.  `none` is a panic: the source indexes
`self.entries[key]` (twice) and unwraps `get_mut` on both ring neighbours. -/
def TLRUCache.remove {K V : Type} [DecidableEq K] (c : TLRUCache K V) (k : K) :
    Option (TLRUCache K V) :=
  match c.removeFixNewest k with
  | none => none
  | some c1 =>
    -- second block: join both ring neighbours, then drop the entry
    match assocFind c1.entries k with
    | none => none
    | some e =>
      match assocFind c1.entries e.newer with
      | none => none
      | some _ =>
        let c2 := { c1 with
          entries := assocUpdate c1.entries e.newer (fun en => { en with older := e.older }) }
        match assocFind c2.entries e.older with
        | none => none
        | some _ =>
          let c3 := { c2 with
            entries := assocUpdate c2.entries e.older (fun en => { en with newer := e.newer }) }
          some { c3 with entries := assocErase c3.entries k }

/-- One fuel-bounded unfolding of the `gc` loop.  `newest_key` is the loop's
captured copy of `newest_entry`; `current` is `current_entry`. -/
def TLRUCache.gcAux {K V : Type} [DecidableEq K] (full : Bool) (now : Nat)
    (newest_key : K) : Nat → K → TLRUCache K V → Option (TLRUCache K V)
  | 0, _, _ => none
  | fuel + 1, current, c =>
    match assocFind c.entries current with
    | none => none
    | some ce =>
      let next_key := ce.newer
      match c.max_items with
      | some mi =>
        if c.entries.length > mi then
          match c.remove current with
          | none => none
          | some c2 =>
            if current = newest_key then some c2
            else TLRUCache.gcAux full now newest_key fuel next_key c2
        else
          if current = newest_key then some c
          else TLRUCache.gcAux full now newest_key fuel next_key c
      | none =>
        if ¬ is_entry_not_expired c ce now then
          match c.remove current with
          | none => none
          | some c2 =>
            if current = newest_key then some c2
            else TLRUCache.gcAux full now newest_key fuel next_key c2
        else if ¬ full then some c
        else
          if current = newest_key then some c
          else TLRUCache.gcAux full now newest_key fuel next_key c

/-- Embeds `TLRUCache::gc` (the `now` default argument is passed
explicitly, as elsewhere). -/
def TLRUCache.gc {K V : Type} [DecidableEq K] (c : TLRUCache K V) (full : Bool)
    (now : Nat) : Option (TLRUCache K V) :=
  match c.newest_entry with
  | none => some c
  | some newest_key =>
    match assocFind c.entries newest_key with
    | none => none
    | some ne =>
      TLRUCache.gcAux full now newest_key c.entries.length ne.newer c

/-- Embeds `TLRUCache::insert` (including the trailing `gc(false, now)`). -/
def TLRUCache.insert {K V : Type} [DecidableEq K] (c : TLRUCache K V) (k : K)
    (v : V) (now : Nat) : Option (TLRUCache K V) :=
  match c.newest_entry with
  | some current_newest_key =>
    match assocFind c.entries current_newest_key with
    | none => none
    | some current_newest =>
      let current_oldest_key := current_newest.newer
      let c1 := { c with
        entries := assocUpdate c.entries current_newest_key (fun e => { e with newer := k }) }
      match assocFind c1.entries current_oldest_key with
      | none => none
      | some _ =>
        let c2 := { c1 with
          entries := assocUpdate c1.entries current_oldest_key (fun e => { e with older := k }) }
        let new_node : CacheEntry K V :=
          ⟨v, current_oldest_key, current_newest_key, now, now⟩
        let c3 := { c2 with
          entries := assocInsert c2.entries k new_node, newest_entry := some k }
        c3.gc false now
  | none =>
    let new_node : CacheEntry K V := ⟨v, k, k, now, now⟩
    let c3 := { c with
      entries := assocInsert c.entries k new_node, newest_entry := some k }
    c3.gc false now

/-- Embeds `TLRUCache::get`: `some (c', r)` is a normal return with result
`r`; the relink to the newest position follows the source's sequence of
`get_mut` mutations (the `value` field is untouched by the relink, so the
returned value is the entry's value). -/
def TLRUCache.get {K V : Type} [DecidableEq K] (c : TLRUCache K V) (k : K)
    (now : Nat) : Option (TLRUCache K V × Option V) :=
  match assocFind c.entries k with
  | none => some (c, none)
  | some e =>
    if is_entry_not_expired c e now then
      match c.newest_entry with
      | some newest_key =>
        if newest_key = k then some (c, some e.value)
        else
          let current_newer_key := e.newer
          let current_older_key := e.older
          match assocFind c.entries current_newer_key with
          | none => none
          | some _ =>
            let c1 := { c with
              entries := assocUpdate c.entries current_newer_key
                (fun en => { en with older := current_older_key }) }
            match assocFind c1.entries current_older_key with
            | none => none
            | some _ =>
              let c2 := { c1 with
                entries := assocUpdate c1.entries current_older_key
                  (fun en => { en with newer := current_newer_key }) }
              match assocFind c2.entries newest_key with
              | none => none
              | some newest =>
                let oldest_key := newest.newer
                let c3 := { c2 with
                  entries := assocUpdate c2.entries newest_key
                    (fun en => { en with newer := k }) }
                match assocFind c3.entries oldest_key with
                | none => none
                | some _ =>
                  let c4 := { c3 with
                    entries := assocUpdate c3.entries oldest_key
                      (fun en => { en with older := k }) }
                  match assocFind c4.entries k with
                  | none => none
                  | some _ =>
                    let c5 := { c4 with
                      entries := assocUpdate c4.entries k
                        (fun en => { en with newer := oldest_key, older := newest_key }),
                      newest_entry := some k }
                    some (c5, some e.value)
      | none => some (c, some e.value)
    else
      match c.remove k with
      | none => none
      | some c2 => some (c2, none)

/-- Embeds `TLRUCache::clear`. -/
def TLRUCache.clear {K V : Type} (c : TLRUCache K V) : TLRUCache K V :=
  { c with entries := [], newest_entry := none }

/-- One public cache operation (the argument of the C8 bound). -/
inductive CacheOp (K V : Type) where
  | insertOp (k : K) (v : V) (now : Nat)
  | getOp (k : K) (now : Nat)
  | removeOp (k : K)
  | clearOp
  | gcOp (full : Bool) (now : Nat)

/-- Runs one public cache operation, `none` meaning it did not return. -/
def runOp {K V : Type} [DecidableEq K] (c : TLRUCache K V) :
    CacheOp K V → Option (TLRUCache K V)
  | .insertOp k v now => c.insert k v now
  | .getOp k now => (c.get k now).map (·.1)
  | .removeOp k => c.remove k
  | .clearOp => some c.clear
  | .gcOp full now => c.gc full now

/-- The spec's ring-link invariant, restricted to the held keys: for every
entry `(k, e)`, the entry named by `e.newer` exists and its `older` link
names `k` back. -/
def ringLinkedB {K V : Type} [DecidableEq K] (c : TLRUCache K V) : Bool :=
  c.entries.all (fun p =>
    match assocFind c.entries p.2.newer with
    | some en => en.older = p.1
    | none => false)

/-! ## TLRU claims: concrete evaluations (C2, C3) -/

/-- A cache with `max_items = 1`, `max_create_age = 0`, holding one entry
inserted at time 0 (exactly the state `TLRUCache::new(Some(1), Some(0), None)`
followed by `insert(1, 10)` at time 0 produces). -/
def cacheExpired : TLRUCache Nat Nat :=
  ⟨[(1, ⟨10, 1, 1, 0, 0⟩)], some 1, some 1, some 0, none⟩

/-- C2: when `max_items` is configured, `gc` never applies the expiry test
(the `else if` chain skips it): at time 1 the single entry is expired by the
cache's own `is_entry_not_expired`, yet both `gc(false)` and `gc(true)`
leave the cache unchanged. -/
theorem tlru_gc_skips_expired_when_bounded :
    is_entry_not_expired cacheExpired ⟨10, 1, 1, 0, 0⟩ 1 = false ∧
    TLRUCache.gc cacheExpired false 1 = some cacheExpired ∧
    TLRUCache.gc cacheExpired true 1 = some cacheExpired :=
  ⟨rfl, rfl, rfl⟩

/-- `new(None, None, None)` followed by `insert(1, 11)`, `insert(2, 22)`,
`insert(3, 33)` (all at time 0). -/
def tlruRunDistinct : Option (TLRUCache Nat Nat) :=
  ((TLRUCache.new none none none : TLRUCache Nat Nat).insert 1 11 0).bind
    (fun c => (c.insert 2 22 0).bind (fun c => c.insert 3 33 0))

/-- `tlruRunDistinct` followed by the duplicate-key `insert(2, 44)`. -/
def tlruRunDup : Option (TLRUCache Nat Nat) :=
  tlruRunDistinct.bind (fun c => c.insert 2 44 0)

/-- C3: three distinct-key inserts leave the ring intact, but re-inserting
the existing key 2 corrupts it — `insert` never unlinks the replaced entry's
old ring position.  Afterwards all three keys are still held, and the
ring-link invariant fails (entry 1's `newer` names 2, but entry 2's `older`
names 3, not 1). -/
theorem tlru_dup_insert_breaks_ring :
    tlruRunDistinct.map ringLinkedB = some true ∧
    tlruRunDup.map ringLinkedB = some false ∧
    tlruRunDup.map (fun c => c.entries.length) = some 3 ∧
    tlruRunDup.map (fun c => (assocFind c.entries 1).map (·.newer)) =
      some (some 2) ∧
    tlruRunDup.map (fun c => (assocFind c.entries 2).map (·.older)) =
      some (some 3) :=
  ⟨rfl, rfl, rfl, rfl, rfl⟩

/-! ## TLRU lemmas for the size bound (C8) and remove (C10) -/

section TLRULemmas

variable {K V : Type} [DecidableEq K]

theorem removeFixNewest_fields (c : TLRUCache K V) (k : K) (c1 : TLRUCache K V)
    (h : c.removeFixNewest k = some c1) :
    c1.entries = c.entries ∧ c1.max_items = c.max_items ∧
      c1.max_create_age = c.max_create_age ∧
      c1.max_access_age = c.max_access_age := by
  simp only [TLRUCache.removeFixNewest] at h
  split at h
  · split at h
    · split at h
      · split at h
        · cases Option.some.inj h
          exact ⟨rfl, rfl, rfl, rfl⟩
        · cases Option.some.inj h
          exact ⟨rfl, rfl, rfl, rfl⟩
      · exact absurd h (by simp)
    · cases Option.some.inj h
      exact ⟨rfl, rfl, rfl, rfl⟩
  · cases Option.some.inj h
    exact ⟨rfl, rfl, rfl, rfl⟩

theorem removeFixNewest_none (c : TLRUCache K V) (k : K)
    (h : c.removeFixNewest k = none) : assocFind c.entries k = none := by
  simp only [TLRUCache.removeFixNewest] at h
  split at h
  · split at h
    · split at h
      · split at h <;> exact absurd h (by simp)
      · assumption
    · exact absurd h (by simp)
  · exact absurd h (by simp)

theorem remove_some_shape (c : TLRUCache K V) (k : K) (c' : TLRUCache K V)
    (h : c.remove k = some c') :
    ∃ e, assocFind c.entries k = some e ∧
      c'.entries =
        assocErase
          (assocUpdate
            (assocUpdate c.entries e.newer (fun en => { en with older := e.older }))
            e.older (fun en => { en with newer := e.newer })) k ∧
      c'.max_items = c.max_items ∧
      c'.max_create_age = c.max_create_age ∧
      c'.max_access_age = c.max_access_age := by
  simp only [TLRUCache.remove] at h
  split at h
  · exact absurd h (by simp)
  · rename_i c1 hstep
    obtain ⟨hent, hmi, hmc, hma⟩ := removeFixNewest_fields c k c1 hstep
    split at h
    · exact absurd h (by simp)
    · rename_i e hfind
      split at h
      · exact absurd h (by simp)
      · split at h
        · exact absurd h (by simp)
        · refine ⟨e, hent ▸ hfind, ?_, ?_, ?_, ?_⟩
          · rw [← Option.some.inj h]
            simp [hent]
          · rw [← Option.some.inj h]
            simpa using hmi
          · rw [← Option.some.inj h]
            simpa using hmc
          · rw [← Option.some.inj h]
            simpa using hma

theorem remove_max_items (c : TLRUCache K V) (k : K) (c' : TLRUCache K V)
    (h : c.remove k = some c') : c'.max_items = c.max_items :=
  (remove_some_shape c k c' h).choose_spec.2.2.1

theorem remove_length_lt (c : TLRUCache K V) (k : K) (c' : TLRUCache K V)
    (h : c.remove k = some c') : c'.entries.length < c.entries.length := by
  obtain ⟨e, hfind, hent, -⟩ := remove_some_shape c k c' h
  rw [hent]
  obtain ⟨w1, hw1⟩ := assocFind_update_isSome c.entries e.newer k
    (fun en => { en with older := e.older }) hfind
  obtain ⟨w2, hw2⟩ := assocFind_update_isSome _ e.older k
    (fun en => { en with newer := e.newer }) hw1
  calc (assocErase _ k).length
      < (assocUpdate (assocUpdate c.entries e.newer _) e.older _).length :=
        length_assocErase_lt _ k hw2
    _ = c.entries.length := by rw [length_assocUpdate, length_assocUpdate]

theorem gcAux_length_le (full : Bool) (now : Nat) (nk : K) (m : Nat) :
    ∀ (fuel : Nat) (cur : K) (c c' : TLRUCache K V),
      c.max_items = some m → c.entries.length ≤ m + 1 →
      TLRUCache.gcAux full now nk fuel cur c = some c' →
      c'.entries.length ≤ m := by
  intro fuel
  induction fuel with
  | zero =>
    intro cur c c' _ _ h
    simp [TLRUCache.gcAux] at h
  | succ fuel ih =>
    intro cur c c' hmi hlen h
    simp only [TLRUCache.gcAux] at h
    split at h
    · exact absurd h (by simp)
    · rename_i ce hce
      rw [hmi] at h
      simp only at h
      by_cases hover : c.entries.length > m
      · rw [if_pos hover] at h
        split at h
        · exact absurd h (by simp)
        · rename_i c2 hrem
          have hlen2 : c2.entries.length ≤ m := by
            have := remove_length_lt c cur c2 hrem
            omega
          have hmi2 : c2.max_items = some m := by
            rw [remove_max_items c cur c2 hrem, hmi]
          split at h
          · rw [Option.some.inj h] at hlen2
            exact hlen2
          · exact ih ce.newer c2 c' hmi2 (Nat.le_succ_of_le hlen2) h
      · rw [if_neg hover] at h
        have hlen' : c.entries.length ≤ m := by omega
        split at h
        · rw [← Option.some.inj h]
          exact hlen'
        · exact ih ce.newer c c' hmi (Nat.le_succ_of_le hlen') h

theorem gc_length_le (c : TLRUCache K V) (full : Bool) (now : Nat)
    (c' : TLRUCache K V) (m : Nat) (hmi : c.max_items = some m)
    (hlen : c.entries.length ≤ m + 1) (h : c.gc full now = some c') :
    c'.entries.length ≤ m ∨ (c' = c ∧ c.newest_entry = none) := by
  simp only [TLRUCache.gc] at h
  split at h
  · rename_i hne
    exact Or.inr ⟨(Option.some.inj h).symm, hne⟩
  · rename_i nk hne
    split at h
    · exact absurd h (by simp)
    · rename_i ne hfind
      exact Or.inl (gcAux_length_le full now nk m c.entries.length ne.newer c c'
        hmi hlen h)

theorem insert_length_le (c : TLRUCache K V) (k : K) (v : V) (now : Nat)
    (c' : TLRUCache K V) (m : Nat) (hmi : c.max_items = some m)
    (hlen : c.entries.length ≤ m) (h : c.insert k v now = some c') :
    c'.entries.length ≤ m := by
  simp only [TLRUCache.insert] at h
  split at h
  · rename_i nk hne
    split at h
    · exact absurd h (by simp)
    · rename_i cn hcn
      split at h
      · exact absurd h (by simp)
      · rename_i hco
        have hgc := gc_length_le _ false now c' m (by simpa using hmi) ?_ h
        · rcases hgc with hgc | ⟨_, hnone⟩
          · exact hgc
          · simp at hnone
        · calc (assocInsert (assocUpdate (assocUpdate c.entries _ _) _ _) k _).length
              ≤ (assocUpdate (assocUpdate c.entries _ _) _ _).length + 1 :=
                length_assocInsert_le _ _ _
            _ = c.entries.length + 1 := by rw [length_assocUpdate, length_assocUpdate]
            _ ≤ m + 1 := by omega
  · have hgc := gc_length_le _ false now c' m (by simpa using hmi) ?_ h
    · rcases hgc with hgc | ⟨_, hnone⟩
      · exact hgc
      · simp at hnone
    · calc (assocInsert c.entries k _).length
          ≤ c.entries.length + 1 := length_assocInsert_le _ _ _
        _ ≤ m + 1 := by omega

theorem get_length_le (c : TLRUCache K V) (k : K) (now : Nat)
    (r : TLRUCache K V × Option V) (h : c.get k now = some r) :
    r.1.entries.length ≤ c.entries.length := by
  simp only [TLRUCache.get] at h
  split at h
  · rw [← Option.some.inj h]
  · rename_i e he
    split at h
    · split at h
      · rename_i nk hne
        split at h
        · rw [← Option.some.inj h]
        · split at h
          · exact absurd h (by simp)
          · split at h
            · exact absurd h (by simp)
            · split at h
              · exact absurd h (by simp)
              · rename_i newest hnw
                split at h
                · exact absurd h (by simp)
                · split at h
                  · exact absurd h (by simp)
                  · rw [← Option.some.inj h]
                    simp [length_assocUpdate]
      · rw [← Option.some.inj h]
    · split at h
      · exact absurd h (by simp)
      · rename_i c2 hrem
        rw [← Option.some.inj h]
        exact Nat.le_of_lt (remove_length_lt c k c2 hrem)

end TLRULemmas

/-! ## TLRU claims: the size bound (C8) and remove's precondition (C10) -/

/-- C8: with `max_items = m` configured, every public cache operation that
returns normally preserves the bound `|entries| ≤ m` (so, starting from the
empty cache, the bound holds after any operation returns). -/
theorem tlru_max_items_bound (K V : Type) [DecidableEq K] (m : Nat)
    (c c' : TLRUCache K V) (op : CacheOp K V)
    (hmi : c.max_items = some m) (hlen : c.entries.length ≤ m)
    (hrun : runOp c op = some c') :
    c'.entries.length ≤ m := by
  cases op with
  | insertOp k v now => exact insert_length_le c k v now c' m hmi hlen hrun
  | getOp k now =>
    simp only [runOp] at hrun
    cases hg : c.get k now with
    | none => rw [hg] at hrun; simp at hrun
    | some r =>
      rw [hg] at hrun
      have hle := get_length_le c k now r hg
      have hr : r.1 = c' := by simpa using hrun
      rw [← hr]
      exact le_trans hle hlen
  | removeOp k =>
    have := remove_length_lt c k c' hrun
    omega
  | clearOp =>
    cases Option.some.inj hrun
    simp [TLRUCache.clear]
  | gcOp full now =>
    rcases gc_length_le c full now c' m hmi (Nat.le_succ_of_le hlen) hrun
      with h | ⟨he, _⟩
    · exact h
    · rw [he]
      exact hlen

/-- The cache produced by `insert(5, 55)` at time 0 into
`TLRUCache::new(Some(1), None, None)`. -/
def cacheBound1 : TLRUCache Nat Nat :=
  ⟨[(5, ⟨55, 5, 5, 0, 0⟩)], some 5, some 1, none, none⟩

/-- Witness for C8 at a concrete insert into the empty bounded cache. -/
theorem tlru_max_items_bound_witness : cacheBound1.entries.length ≤ 1 :=
  tlru_max_items_bound Nat Nat 1 (TLRUCache.new (some 1) none none) cacheBound1
    (CacheOp.insertOp 5 55 0) rfl (by decide) rfl

/-- C10: `remove(&k)` panics (never returns) whenever `k` is absent from the
entries map — the source indexes the map at `k` unconditionally; when `k` is
present (with its ring neighbours present, as on any intact ring), `remove`
returns normally with `k` deleted from the map and its two neighbours
relinked to each other. -/
theorem tlru_remove_spec (K V : Type) [DecidableEq K]
    (c : TLRUCache K V) (k : K) :
    (assocFind c.entries k = none → c.remove k = none) ∧
    (∀ e, assocFind c.entries k = some e →
      (∃ en, assocFind c.entries e.newer = some en) →
      (∃ eo, assocFind c.entries e.older = some eo) →
      ∃ c', c.remove k = some c' ∧
        assocFind c'.entries k = none ∧
        (e.newer ≠ k →
          (assocFind c'.entries e.newer).map (·.older) = some e.older) ∧
        (e.older ≠ k →
          (assocFind c'.entries e.older).map (·.newer) = some e.newer)) := by
  constructor
  · intro h
    cases hx : c.removeFixNewest k with
    | none => simp [TLRUCache.remove, hx]
    | some c1 =>
      have hent := (removeFixNewest_fields c k c1 hx).1
      simp [TLRUCache.remove, hx, hent, h]
  · rintro e he ⟨en, hen⟩ ⟨eo, heo⟩
    obtain ⟨w, hw⟩ := assocFind_update_isSome c.entries e.newer e.older
      (fun x => { x with older := e.older }) heo
    have hsome : (c.remove k).isSome := by
      cases hx : c.removeFixNewest k with
      | none =>
        have hcontra := removeFixNewest_none c k hx
        rw [hcontra] at he
        exact absurd he (by simp)
      | some c1 =>
        obtain ⟨hent, -, -, -⟩ := removeFixNewest_fields c k c1 hx
        simp [TLRUCache.remove, hx, hent, he, hen, hw]
    obtain ⟨c', hr⟩ := Option.isSome_iff_exists.mp hsome
    obtain ⟨e2, he2, hent, -⟩ := remove_some_shape c k c' hr
    rw [he] at he2
    cases Option.some.inj he2
    refine ⟨c', hr, ?_, ?_, ?_⟩
    · rw [hent]
      exact assocFind_erase_self _ _
    · intro hnk
      rw [hent, assocFind_erase_ne _ _ _ (Ne.symm hnk)]
      by_cases hoe : e.older = e.newer
      · rw [hoe, assocFind_update_self, assocFind_update_self, hen]
        simp
      · rw [assocFind_update_ne _ _ _ _ hoe, assocFind_update_self, hen]
        simp
    · intro hok
      rw [hent, assocFind_erase_ne _ _ _ (Ne.symm hok), assocFind_update_self,
        hw]
      simp

/-- A two-entry cache (ring 1 ↔ 2, newest 2) used by the C10 witness. -/
def cachePair : TLRUCache Nat Nat :=
  ⟨[(1, ⟨10, 2, 2, 0, 0⟩), (2, ⟨20, 1, 1, 0, 0⟩)], some 2, none, none, none⟩

/-- Witness for C10: removing the present key 1 returns normally, deletes 1
and relinks entry 2 to itself. -/
theorem tlru_remove_spec_witness :
    ∃ c', cachePair.remove 1 = some c' ∧
      assocFind c'.entries 1 = none ∧
      ((2 : Nat) ≠ 1 → (assocFind c'.entries 2).map (·.older) = some 2) ∧
      ((2 : Nat) ≠ 1 → (assocFind c'.entries 2).map (·.newer) = some 2) :=
  (tlru_remove_spec Nat Nat cachePair 1).2 ⟨10, 2, 2, 0, 0⟩ rfl ⟨_, rfl⟩ ⟨_, rfl⟩

/-! ## DataStore (src/src/datastore/mod.rs)

The owner-thread request handlers (`Set`, `Delete`, `GetCurrent`, ...) are
all `todo!()` placeholders in the source (src/src/datastore/mod.rs, lines
99-156), so their behaviour is modelled from the specification. -/

/-- Embeds `Value<T>` (src/src/datastore/mod.rs): the record returned by the
datastore API.  `change_id` embeds the `Uuid`, with 0 the synthetic "none". -/
structure DSValue (T : Type) where
  value : Option T
  path : List String
  timestamp : Nat
  change_id : Nat
deriving DecidableEq, Repr

/-- Modelled from the spec: the per-path persisted state of a DataStore (a
chronologically-ordered list of `Value` records per tree node) together with
a fresh-change-id source; the owner-thread handlers that would maintain it
are `todo!()` in the source. -/
structure DSState (T : Type) where
  history : List (List String × List (DSValue T))
  next_id : Nat

/-- Modelled from the spec: the `Set`/`Delete` handler ("call adapter
`set(path, serialized?)`; adapter appends a new row with generated change_id
and current timestamp, returning the ChangeId"); the source handler is
`todo!()`.  `v = none` is `Delete`. -/
def DSState.set {T : Type} (st : DSState T) (p : List String) (v : Option T)
    (now : Nat) : DSState T × Nat :=
  let cid := st.next_id + 1
  let entry : DSValue T := ⟨v, p, now, cid⟩
  let old := (assocFind st.history p).getD []
  (⟨assocInsert st.history p (old ++ [entry]), cid⟩, cid)

/-- Modelled from the spec: the `GetCurrent` handler ("adapter
`get_current(path)`; if absent, return a Value with `value=None` and a
synthetic zero ChangeId; else return the newest Value at the path"); the
source handler is `todo!()`. -/
def DSState.get_current {T : Type} (st : DSState T) (p : List String) :
    DSValue T :=
  match ((assocFind st.history p).getD []).getLast? with
  | some v => v
  | none => ⟨none, p, 0, 0⟩

theorem ds_get_current_set {T : Type} (st : DSState T) (p : List String)
    (w : Option T) (now : Nat) :
    ((st.set p w now).1).get_current p = ⟨w, p, now, st.next_id + 1⟩ := by
  simp only [DSState.set, DSState.get_current]
  rw [assocFind_insert_self]
  simp [List.getLast?_concat]

/-- C7: the DataStore set/get round trip — after `set(p, v)` the current
value at `p` is `Some v`, and after two sets the current value is the second
one (spec-modelled: the handlers are `todo!()` in the source). -/
theorem ds_set_get_current_roundtrip (T : Type) (st : DSState T)
    (p : List String) (v v1 v2 : T) (n1 n2 : Nat) :
    (((st.set p (some v) n1).1).get_current p).value = some v ∧
    ((((st.set p (some v1) n1).1.set p (some v2) n2).1).get_current p).value =
      some v2 := by
  constructor
  · rw [ds_get_current_set]
  · rw [ds_get_current_set]

/-! ## MessageID hex serialization (src/src/message_queue.rs, lines 412-493)

Strings are embedded as `List Char`.  `u128Size = 2 ^ 128` is the modulus of
`u128`; a `MessageID`'s `id` field carries `id < 2 ^ 128` as the `u128` type
invariant. -/

/-- The number of `u128` values. -/
def u128Size : Nat := 2 ^ 128

/-- The digit loop of `format!("{:x}", n)` with explicit fuel (the number of
divisions by 16 is at most the fuel whenever `n ≤ fuel`): most significant
digit first, lowercase, empty for 0. -/
def hexDigitsAux : Nat → Nat → List Char
  | 0, _ => []
  | fuel + 1, n =>
    if n = 0 then [] else hexDigitsAux fuel (n / 16) ++ [Nat.digitChar (n % 16)]

/-- The lowercase hex digits of `n`, most significant first. -/
def hexDigits (n : Nat) : List Char := hexDigitsAux n n

/-- Embeds `MessageID::to_string`, i.e. `format!("{:032x}", self.id)`:
lowercase hex digits, zero-padded on the left to width 32. -/
def MessageID.to_string (m : MessageID) : List Char :=
  let ds := hexDigits m.id
  List.replicate (32 - ds.length) '0' ++ ds

/-- `c` is one of `0-9a-f` (code points 48-57 and 97-102). -/
def isLowerHexDigit (c : Char) : Bool :=
  decide ((48 ≤ c.toNat ∧ c.toNat ≤ 57) ∨ (97 ≤ c.toNat ∧ c.toNat ≤ 102))

/-- Embeds `char::to_digit(16)` as used by `u128::from_str_radix`: a decimal
digit maps to its value, a letter `a-f`/`A-F` to its value plus ten
(code points: `'0'` = 48, `'a'` = 97, `'A'` = 65). -/
def hexDigitVal (c : Char) : Option Nat :=
  let n := c.toNat
  if 48 ≤ n ∧ n ≤ 57 then some (n - 48)
  else if 97 ≤ n ∧ n ≤ 102 then some (n - 87)
  else if 65 ≤ n ∧ n ≤ 70 then some (n - 55)
  else none

/-- The positive-digit loop of `u128::from_str_radix(.., 16)`: accumulate
`acc * 16 + d`, failing on a non-digit or on `u128` overflow. -/
def radixFoldPos : Nat → List Char → Option Nat
  | acc, [] => some acc
  | acc, c :: rest =>
    match hexDigitVal c with
    | none => none
    | some d =>
      if acc * 16 + d < u128Size then radixFoldPos (acc * 16 + d) rest
      else none

/-- The negative-sign loop of `u128::from_str_radix`: `checked_mul` then
`checked_sub`, so any digit sequence with a nonzero value underflows. -/
def radixFoldNeg : Nat → List Char → Option Nat
  | acc, [] => some acc
  | acc, c :: rest =>
    match hexDigitVal c with
    | none => none
    | some d =>
      if acc * 16 < u128Size then
        if d ≤ acc * 16 then radixFoldNeg (acc * 16 - d) rest else none
      else none

/-- Embeds `u128::from_str_radix(v, 16)` as used by `MessageIDVisitor`:
optional leading sign, then at least one radix-16 digit, with overflow
checking. -/
def from_str_radix16 (s : List Char) : Option Nat :=
  match s with
  | [] => none
  | c :: rest =>
    if c = '+' then
      match rest with
      | [] => none
      | _ :: _ => radixFoldPos 0 rest
    else if c = '-' then
      match rest with
      | [] => none
      | _ :: _ => radixFoldNeg 0 rest
    else radixFoldPos 0 (c :: rest)

/-- The numeric value of a digit string (most significant first). -/
def hexStrVal (s : List Char) : Nat :=
  s.foldl (fun a c => a * 16 + (hexDigitVal c).getD 0) 0

section HexLemmas

theorem digitChar_lower_hex : ∀ d : Nat, d < 16 →
    isLowerHexDigit (Nat.digitChar d) = true ∧
      hexDigitVal (Nat.digitChar d) = some d := by decide

theorem hexDigitsAux_length : ∀ (fuel n : Nat), n ≤ fuel → ∀ k, n < 16 ^ k →
    (hexDigitsAux fuel n).length ≤ k := by
  intro fuel
  induction fuel with
  | zero =>
    intro n hn k hk
    simp [hexDigitsAux]
  | succ fuel ih =>
    intro n hn k hk
    by_cases h0 : n = 0
    · simp [hexDigitsAux, h0]
    · have hunf : hexDigitsAux (fuel + 1) n =
          hexDigitsAux fuel (n / 16) ++ [Nat.digitChar (n % 16)] := by
        simp [hexDigitsAux, h0]
      rw [hunf, List.length_append]
      have hdiv : n / 16 ≤ fuel := by
        have := Nat.div_lt_self (Nat.pos_of_ne_zero h0) (by decide : 1 < 16)
        omega
      cases k with
      | zero =>
        rw [pow_zero] at hk
        omega
      | succ k' =>
        have hk' : n / 16 < 16 ^ k' := by
          rw [Nat.div_lt_iff_lt_mul (by decide : 0 < 16)]
          calc n < 16 ^ (k' + 1) := hk
            _ = 16 ^ k' * 16 := by rw [pow_succ]
        have := ih (n / 16) hdiv k' hk'
        simp only [List.length_singleton]
        omega

theorem hexDigitsAux_lower : ∀ (fuel n : Nat), n ≤ fuel →
    ∀ c ∈ hexDigitsAux fuel n, isLowerHexDigit c = true := by
  intro fuel
  induction fuel with
  | zero =>
    intro n hn c hc
    simp [hexDigitsAux] at hc
  | succ fuel ih =>
    intro n hn c hc
    by_cases h0 : n = 0
    · simp [hexDigitsAux, h0] at hc
    · have hunf : hexDigitsAux (fuel + 1) n =
          hexDigitsAux fuel (n / 16) ++ [Nat.digitChar (n % 16)] := by
        simp [hexDigitsAux, h0]
      rw [hunf, List.mem_append] at hc
      rcases hc with hc | hc
      · have hdiv : n / 16 ≤ fuel := by
          have := Nat.div_lt_self (Nat.pos_of_ne_zero h0) (by decide : 1 < 16)
          omega
        exact ih (n / 16) hdiv c hc
      · rw [List.mem_singleton] at hc
        subst hc
        exact (digitChar_lower_hex (n % 16) (Nat.mod_lt n (by decide))).1

theorem radixFoldPos_append (l1 l2 : List Char) : ∀ acc : Nat,
    radixFoldPos acc (l1 ++ l2) =
      match radixFoldPos acc l1 with
      | some a => radixFoldPos a l2
      | none => none := by
  induction l1 with
  | nil => intro acc; rfl
  | cons c rest ih =>
    intro acc
    rw [List.cons_append]
    simp only [radixFoldPos]
    cases hexDigitVal c with
    | none => rfl
    | some d =>
      simp only []
      by_cases hov : acc * 16 + d < u128Size
      · rw [if_pos hov, if_pos hov]
        exact ih _
      · rw [if_neg hov, if_neg hov]

theorem hexDigitsAux_foldPos : ∀ (fuel n acc : Nat), n ≤ fuel →
    acc * 16 ^ (hexDigitsAux fuel n).length + n < u128Size →
    radixFoldPos acc (hexDigitsAux fuel n) =
      some (acc * 16 ^ (hexDigitsAux fuel n).length + n) := by
  intro fuel
  induction fuel with
  | zero =>
    intro n acc hn hb
    have h0 : n = 0 := Nat.le_zero.mp hn
    subst h0
    simp [hexDigitsAux, radixFoldPos]
  | succ fuel ih =>
    intro n acc hn hb
    by_cases h0 : n = 0
    · subst h0
      simp [hexDigitsAux, radixFoldPos]
    · have hunf : hexDigitsAux (fuel + 1) n =
          hexDigitsAux fuel (n / 16) ++ [Nat.digitChar (n % 16)] := by
        simp [hexDigitsAux, h0]
      rw [hunf] at hb ⊢
      rw [List.length_append, List.length_singleton] at hb ⊢
      have hdm : 16 * (n / 16) + n % 16 = n := Nat.div_add_mod n 16
      have key : (acc * 16 ^ (hexDigitsAux fuel (n / 16)).length + n / 16) * 16
            + n % 16 =
          acc * 16 ^ ((hexDigitsAux fuel (n / 16)).length + 1) + n := by
        calc (acc * 16 ^ (hexDigitsAux fuel (n / 16)).length + n / 16) * 16
              + n % 16
            = acc * (16 ^ (hexDigitsAux fuel (n / 16)).length * 16)
                + (16 * (n / 16) + n % 16) := by ring
          _ = acc * 16 ^ ((hexDigitsAux fuel (n / 16)).length + 1) + n := by
              rw [hdm, pow_succ]
      have hX : acc * 16 ^ (hexDigitsAux fuel (n / 16)).length + n / 16
          < u128Size := by
        calc acc * 16 ^ (hexDigitsAux fuel (n / 16)).length + n / 16
            ≤ (acc * 16 ^ (hexDigitsAux fuel (n / 16)).length + n / 16) * 16 :=
              Nat.le_mul_of_pos_right _ (by decide)
          _ ≤ (acc * 16 ^ (hexDigitsAux fuel (n / 16)).length + n / 16) * 16
                + n % 16 := Nat.le_add_right _ _
          _ = acc * 16 ^ ((hexDigitsAux fuel (n / 16)).length + 1) + n := key
          _ < u128Size := hb
      have hdiv : n / 16 ≤ fuel := by
        have := Nat.div_lt_self (Nat.pos_of_ne_zero h0) (by decide : 1 < 16)
        omega
      rw [radixFoldPos_append, ih (n / 16) acc hdiv hX]
      simp only [radixFoldPos,
        (digitChar_lower_hex (n % 16) (Nat.mod_lt n (by decide))).2]
      rw [if_pos (key ▸ hb), key]

theorem radixFoldPos_zeros (z : Nat) (l : List Char) :
    radixFoldPos 0 (List.replicate z '0' ++ l) = radixFoldPos 0 l := by
  induction z with
  | zero => rfl
  | succ z ih =>
    rw [List.replicate_succ, List.cons_append]
    have h0 : hexDigitVal '0' = some 0 := by decide
    simp only [radixFoldPos, h0]
    rw [if_pos (by decide : 0 * 16 + 0 < u128Size)]
    exact ih

theorem from_str_radix16_no_sign (s : List Char) (hne : s ≠ [])
    (hdig : ∀ c ∈ s, (hexDigitVal c).isSome = true) :
    from_str_radix16 s = radixFoldPos 0 s := by
  cases s with
  | nil => exact absurd rfl hne
  | cons c rest =>
    have hc := hdig c (List.mem_cons_self _ _)
    have hp : c ≠ '+' := by
      intro hh
      rw [hh] at hc
      exact absurd hc (by decide)
    have hm : c ≠ '-' := by
      intro hh
      rw [hh] at hc
      exact absurd hc (by decide)
    simp only [from_str_radix16]
    rw [if_neg hp, if_neg hm]

theorem hexStrVal_foldl_le (s : List Char) : ∀ a : Nat,
    a ≤ s.foldl (fun a c => a * 16 + (hexDigitVal c).getD 0) a := by
  induction s with
  | nil =>
    intro a
    simp
  | cons c rest ih =>
    intro a
    rw [List.foldl_cons]
    refine le_trans ?_ (ih _)
    have : a ≤ a * 16 := Nat.le_mul_of_pos_right a (by decide)
    omega

theorem radixFoldPos_eval (s : List Char) : ∀ acc : Nat,
    (∀ c ∈ s, (hexDigitVal c).isSome = true) →
    s.foldl (fun a c => a * 16 + (hexDigitVal c).getD 0) acc < u128Size →
    radixFoldPos acc s =
      some (s.foldl (fun a c => a * 16 + (hexDigitVal c).getD 0) acc) := by
  induction s with
  | nil =>
    intro acc _ _
    rfl
  | cons c rest ih =>
    intro acc hdig hlt
    obtain ⟨d, hd⟩ := Option.isSome_iff_exists.mp (hdig c (List.mem_cons_self _ _))
    rw [List.foldl_cons] at hlt ⊢
    simp only [hd, Option.getD_some] at hlt ⊢
    simp only [radixFoldPos, hd]
    have hstep := hexStrVal_foldl_le rest (acc * 16 + d)
    rw [if_pos (lt_of_le_of_lt hstep hlt)]
    exact ih _ (fun x hx => hdig x (List.mem_cons_of_mem _ hx)) hlt

end HexLemmas

/-- C9: for every `u128` value `n`, `MessageID::to_string` produces exactly
32 lowercase hex characters; deserialization accepts every (sign-free) hex
digit string whose value fits in a `u128`; and deserializing the serialized
form returns `n` itself. -/
theorem message_id_hex_serde (n : Nat) (h : n < u128Size) :
    (MessageID.to_string ⟨n⟩).length = 32 ∧
    (∀ c ∈ MessageID.to_string ⟨n⟩, isLowerHexDigit c = true) ∧
    from_str_radix16 (MessageID.to_string ⟨n⟩) = some n ∧
    (∀ s : List Char, s ≠ [] → (∀ c ∈ s, (hexDigitVal c).isSome = true) →
      hexStrVal s < u128Size → from_str_radix16 s = some (hexStrVal s)) := by
  have h16 : n < 16 ^ 32 := by
    have he : (16 : Nat) ^ 32 = u128Size := by decide
    rw [he]
    exact h
  have hlen : (hexDigits n).length ≤ 32 := hexDigitsAux_length n n le_rfl 32 h16
  have hlow : ∀ c ∈ MessageID.to_string ⟨n⟩, isLowerHexDigit c = true := by
    intro c hc
    simp only [MessageID.to_string, List.mem_append] at hc
    rcases hc with hc | hc
    · rw [List.eq_of_mem_replicate hc]
      decide
    · exact hexDigitsAux_lower n n le_rfl c hc
  have hlen32 : (MessageID.to_string ⟨n⟩).length = 32 := by
    simp only [MessageID.to_string, List.length_append, List.length_replicate]
    omega
  refine ⟨hlen32, hlow, ?_, ?_⟩
  · have hne : MessageID.to_string ⟨n⟩ ≠ [] := by
      intro hnil
      rw [hnil] at hlen32
      simp at hlen32
    have hdig : ∀ c ∈ MessageID.to_string ⟨n⟩, (hexDigitVal c).isSome = true := by
      intro c hc
      have hl := hlow c hc
      simp only [isLowerHexDigit, decide_eq_true_eq] at hl
      rcases hl with ⟨h1, h2⟩ | ⟨h1, h2⟩
      · simp [hexDigitVal, h1, h2]
      · have h3 : ¬ c.toNat ≤ 57 := by omega
        simp [hexDigitVal, h1, h2, h3]
    rw [from_str_radix16_no_sign _ hne hdig]
    simp only [MessageID.to_string]
    rw [radixFoldPos_zeros]
    have hb : 0 * 16 ^ (hexDigitsAux n n).length + n < u128Size := by
      simpa using h
    have := hexDigitsAux_foldPos n n 0 le_rfl hb
    rw [hexDigits] at *
    rw [this]
    simp
  · intro s hne hdig hlt
    rw [from_str_radix16_no_sign s hne hdig]
    exact radixFoldPos_eval s 0 hdig hlt

/-- Witness for C9 at `n = 255`: the 32-char serialization parses back. -/
theorem message_id_hex_serde_witness :
    from_str_radix16 (MessageID.to_string ⟨255⟩) = some 255 :=
  ((message_id_hex_serde 255 (by decide)).2.2).1

end AppServer
